import Mathlib

/-!
Verification of the question-of-the-day bot (`src/bot.rs`).

A shallow embedding of the core logic of the repository: the
Damerau-Levenshtein-style distance (`Question::distance`), the reconciliation
of fetched text into the question collection (`Bot::load`), the daily
delivery step (`Bot::answer`), the restore/save persistence pair
(`Bot::restore` / `Bot::save`), and one full timer tick (`Bot::start`).

Strings are modelled as `List Char` (the sequence of Unicode scalar values of
a Rust `String`).  Rust's `str::len` is the UTF-8 byte count, modelled by
`utf8Len`; `str::chars().nth(k)` is `List.get? k`.  `Uuid::new_v4` (an
opaque fresh identifier) is modelled by a monotone counter threaded through
reconciliation.  Fallible external collaborators (the HTTP fetch, the
Discord webhook) are modelled by their outcomes, passed as parameters.
-/

namespace Qotd

/-- A single question record, mirroring `struct Question` in `src/bot.rs`
(`id: Uuid`, `text: String`, `answered: bool`).  The opaque `Uuid` is
modelled as a natural number. -/
structure Question where
  id : Nat
  text : List Char
  answered : Bool
deriving DecidableEq

/-- Rust's `char::is_whitespace`: the Unicode `White_Space` property. -/
def rustIsWhitespace (c : Char) : Bool :=
  (0x09 ≤ c.toNat && c.toNat ≤ 0x0D) || c.toNat = 0x20 || c.toNat = 0x85 ||
  c.toNat = 0xA0 || c.toNat = 0x1680 ||
  (0x2000 ≤ c.toNat && c.toNat ≤ 0x200A) ||
  c.toNat = 0x2028 || c.toNat = 0x2029 || c.toNat = 0x202F ||
  c.toNat = 0x205F || c.toNat = 0x3000

/-- Rust's `str::trim`: drop leading and trailing whitespace. -/
def trim (s : List Char) : List Char :=
  ((s.dropWhile rustIsWhitespace).reverse.dropWhile rustIsWhitespace).reverse

/-- Rust's `str::len`: the number of UTF-8 bytes of the string. -/
def utf8Len (s : List Char) : Nat :=
  (s.map Char.utf8Size).sum

/-- The dynamic-programming table of `Question::distance` (`src/bot.rs`
lines 183-210).  `dlCellF a b f i j` is the cell `matrix[i][j]`: base rows
`matrix[i][0] = i` and `matrix[0][j] = j`, and for `i, j ≥ 1` the minimum of
delete, insert and substitute, with an adjacent-transposition candidate
`matrix[i-2][j-2] + cost` when the guard holds.  Exactly as in the source,
the indices `i, j` range over BYTE positions while the character lookups
`a.get? (i-1)`/`b.get? (j-1)` (Rust `chars().nth(..)`) index CHARACTERS;
out-of-range lookups compare as equal `none`s, as Rust's `Option<char>`
equality does.  The first argument is fuel making the recursion structural;
any fuel `≥ i + j` computes the recurrence (`dlCellF_irrel`). -/
def dlCellF (a b : List Char) : Nat → Nat → Nat → Nat
  | _, 0, j => j
  | _, i+1, 0 => i+1
  | 0, _+1, _+1 => 0
  | f+1, i+1, j+1 =>
    let cost : Nat := if a.get? i = b.get? j then 0 else 1
    let best := min (dlCellF a b f i (j+1) + 1)
        (min (dlCellF a b f (i+1) j + 1) (dlCellF a b f i j + cost))
    if 0 < i ∧ 0 < j ∧ a.get? i = b.get? (j-1) ∧ a.get? (i-1) = b.get? j then
      min best (dlCellF a b f (i-1) (j-1) + cost)
    else best

/-- `Question::distance` (`src/bot.rs` lines 169-213), with `a` the stored
text (`self.text`) and `b` the incoming line (`other`): early return `0` on
exact equality, the two degenerate byte-length cases, then the DP table's
bottom-right cell `matrix[a.len()][b.len()]`. -/
def distance (a b : List Char) : Nat :=
  if a = b then 0
  else if utf8Len a = 0 then utf8Len b
  else if utf8Len b = 0 then utf8Len a
  else dlCellF a b (utf8Len a + utf8Len b) (utf8Len a) (utf8Len b)

/-- Rust's `str::split("\n")`: split on every newline, keeping empty pieces;
the empty string yields one empty piece.  Models `raw.split("\n")` in
`Bot::load`. -/
def splitNl : List Char → List (List Char)
  | [] => [[]]
  | c :: rest =>
    let r := splitNl rest
    if c = '\n' then [] :: r
    else (c :: r.headD []) :: r.tail

/-- The body of the `match` in `Bot::load` (`src/bot.rs` lines 109-121):
scan the collection for the first entry whose distance to the incoming
(raw, untrimmed) line is `< 4`; on a hit with nonzero distance overwrite
that entry's `text` with the trimmed line; on a hit with distance `0`
leave it alone; `none` when no entry is within the threshold. -/
def updateFirstMatch (line : List Char) : List Question → Option (List Question)
  | [] => none
  | q :: rest =>
    if distance q.text line < 4 then
      some ((if distance q.text line ≠ 0 then ⟨q.id, trim line, q.answered⟩ else q) :: rest)
    else
      (updateFirstMatch line rest).map (q :: ·)

/-- One iteration of the `for question in raw_questions` loop of `Bot::load`:
the state is the collection paired with the fresh-id counter (the model of
`Uuid::new_v4`).  An unmatched line appends `Question::new(line.trim())`,
i.e. a record with the next fresh id, the trimmed text and `answered = false`. -/
def reconcileLine (st : List Question × Nat) (line : List Char) : List Question × Nat :=
  match updateFirstMatch line st.1 with
  | some qs => (qs, st.2)
  | none => (st.1 ++ [⟨st.2, trim line, false⟩], st.2 + 1)

/-- The whole of `Bot::load` after the fetch (`src/bot.rs` lines 106-122):
split the fetched block on newlines and run the reconciliation loop over
every resulting line. -/
def reconcileBlock (st : List Question × Nat) (raw : List Char) : List Question × Nat :=
  (splitNl raw).foldl reconcileLine st

/-- Specification-level view of the scan in `Bot::load`: the index of the
first entry whose distance to the incoming line is below the threshold 4. -/
def firstIdxBelow (line : List Char) : List Question → Option Nat
  | [] => none
  | q :: rest =>
    if distance q.text line < 4 then some 0
    else (firstIdxBelow line rest).map (· + 1)

/-- The default used to totalize list indexing; never reached at in-range
indices. -/
def dQ : Question := ⟨0, [], true⟩

/-- The indices (in scan order) of the unanswered questions: the model of
`self.questions.iter_mut().filter(|q| !q.answered)` in `Bot::answer`. -/
def unansweredIdx (qs : List Question) : List Nat :=
  (List.range qs.length).filter fun i => !(qs.getD i dQ).answered

/-- The index of the question selected by `Bot::answer`: the source shuffles
the unanswered entries and takes the first, i.e. it picks one unanswered
entry as directed by the randomness source, here modelled by the `pick`
parameter reduced modulo the number of candidates. -/
def chosenIdx (qs : List Question) (pick : Nat) : Nat :=
  (unansweredIdx qs).getD (pick % (unansweredIdx qs).length) 0

/-- `Bot::answer` (`src/bot.rs` lines 128-151).  Returns the new collection,
the list of texts handed to the Notifier (`self.hook.send`), and whether the
step succeeded (`false` models the early `?` return on a failed send).
If no question is unanswered the step is a successful no-op; otherwise the
selected entry's text is sent, and only on a successful send is its
`answered` flag set. -/
def answer (qs : List Question) (pick : Nat) (notifyOk : Bool) :
    List Question × List (List Char) × Bool :=
  let un := unansweredIdx qs
  if un.length = 0 then (qs, [], true)
  else
    let i := un.getD (pick % un.length) 0
    let q := qs.getD i dQ
    if notifyOk then (qs.set i ⟨q.id, q.text, true⟩, [q.text], true)
    else (qs, [q.text], false)

/-- `Bot::restore` (`src/bot.rs` lines 69-83) after the file read: the
parse result of the persisted state (`none` for malformed or empty
contents) is turned into the in-memory collection by
`serde_json::from_str(..).unwrap_or_default()` — a failed parse is replaced
by the empty collection and is not an error. -/
def restore (parsed : Option (List Question)) : List Question :=
  parsed.getD []

/-- The errors a tick can abort with: the fetch `?` in `Bot::load` and the
send `?` in `Bot::answer`. -/
inductive CycleError where
  | fetch
  | notify
deriving DecidableEq

/-- One iteration of the timer loop in `Bot::start` (`src/bot.rs` lines
50-65): restore the persisted state, fetch (a `none` fetch outcome aborts
with a fetch error), reconcile, and when the collection is non-empty and
the current hour and minute equal the configured `post_at` hour and minute,
run the delivery step; a failed send aborts the tick with a notify error.
On success the result carries the collection that `Bot::save` then persists
and the texts handed to the Notifier. -/
def tick (parsed : Option (List Question)) (fetched : Option (List Char))
    (postAt now : Nat × Nat) (pick : Nat) (notifyOk : Bool) (ctr : Nat) :
    Except CycleError (List Question × List (List Char)) :=
  let qs0 := restore parsed
  match fetched with
  | none => .error .fetch
  | some raw =>
    let st1 := reconcileBlock (qs0, ctr) raw
    if 0 < st1.1.length ∧ now.1 = postAt.1 ∧ now.2 = postAt.2 then
      match answer st1.1 pick notifyOk with
      | (qs2, calls, true) => .ok (qs2, calls)
      | (_, _, false) => .error .notify
    else .ok (st1.1, [])

/-- Modelled from the spec: the self-describing structured interchange
format of §6 in which the persisted state is written (the concrete
byte-level printing and parsing live in the external `serde_json` crate,
outside `src/`).  A value of this type stands for one serialized document. -/
inductive Jsonish where
  | jnum (n : Nat)
  | jstr (s : List Char)
  | jbool (b : Bool)
  | jarr (elems : List Jsonish)
  | jobj (fields : List (List Char × Jsonish))

/-- Modelled from the spec: serialization of one record of the persisted
state layout (§6) — "a unique identifier, a text string, and a boolean
answered flag", in the field order of `struct Question`. -/
def serializeQuestion (q : Question) : Jsonish :=
  .jobj [(['i', 'd'], .jnum q.id),
         (['t', 'e', 'x', 't'], .jstr q.text),
         (['a', 'n', 's', 'w', 'e', 'r', 'e', 'd'], .jbool q.answered)]

/-- Modelled from the spec: serialization of the full collection as the
record-array written by `Bot::save` (`serde_json::to_string(&self.questions)`). -/
def serializeQuestions (qs : List Question) : Jsonish :=
  .jarr (qs.map serializeQuestion)

/-- Modelled from the spec: structural parse of one persisted record;
fails on any shape other than the three expected fields. -/
def deserializeQuestion : Jsonish → Option Question
  | .jobj [(k1, .jnum i), (k2, .jstr t), (k3, .jbool a)] =>
    if k1 = ['i', 'd'] ∧ k2 = ['t', 'e', 'x', 't'] ∧
        k3 = ['a', 'n', 's', 'w', 'e', 'r', 'e', 'd'] then
      some ⟨i, t, a⟩
    else none
  | _ => none

/-- Modelled from the spec: element-by-element parse of the record array,
failing if any element fails. -/
def deserializeList : List Jsonish → Option (List Question)
  | [] => some []
  | x :: xs =>
    match deserializeQuestion x, deserializeList xs with
    | some q, some qs => some (q :: qs)
    | _, _ => none

/-- Modelled from the spec: structural parse of the whole persisted state,
as `serde_json::from_str` in `Bot::restore` produces it. -/
def deserializeQuestions : Jsonish → Option (List Question)
  | .jarr elems => deserializeList elems
  | _ => none

/-- The webhook credentials, mirroring `struct Webhook` in `src/bot.rs`. -/
structure Webhook where
  id : Nat
  token : List Char

/-- The bot state, mirroring `struct Bot` in `src/bot.rs` (lines 17-23):
the source url, the webhook credentials, the configured post time (hour
and minute are all the scheduler consults), and the question collection. -/
structure Bot where
  url : List Char
  hook : Webhook
  post_at : Nat × Nat
  questions : List Question

/-- The persisted content written by `Bot::save` (`src/bot.rs` lines
86-100): the serialization of `self.questions` alone
(`serde_json::to_string(&self.questions)`). -/
def saveContent (b : Bot) : Jsonish :=
  serializeQuestions b.questions

theorem utf8Len_nil : utf8Len [] = 0 := rfl

theorem utf8Len_cons (c : Char) (s : List Char) :
    utf8Len (c :: s) = c.utf8Size + utf8Len s := by
  simp [utf8Len]

theorem utf8Len_eq_zero {s : List Char} : utf8Len s = 0 ↔ s = [] := by
  cases s with
  | nil => simp [utf8Len]
  | cons c t =>
    have h := Char.utf8Size_pos c
    simp only [utf8Len_cons]
    constructor
    · intro hz; omega
    · intro hz; exact absurd hz (List.cons_ne_nil c t)

theorem length_le_utf8Len (s : List Char) : s.length ≤ utf8Len s := by
  induction s with
  | nil => simp [utf8Len]
  | cons c t ih =>
    have h := Char.utf8Size_pos c
    simp only [List.length_cons, utf8Len_cons]
    omega

/-- C8 (amended): the degenerate cases of `Question::distance` return the
UTF-8 byte length of the other string (`str::len` counts bytes, not
characters): `distance "" s = utf8Len s` and `distance s "" = utf8Len s`. -/
theorem distance_empty_utf8Len (s : List Char) :
    distance [] s = utf8Len s ∧ distance s [] = utf8Len s := by
  constructor
  · by_cases h : ([] : List Char) = s
    · subst h; simp [distance, utf8Len]
    · simp [distance, h, utf8Len_nil]
  · by_cases h : s = ([] : List Char)
    · subst h; simp [distance, utf8Len]
    · have h0 : ¬ utf8Len s = 0 := fun hz => h (utf8Len_eq_zero.mp hz)
      simp [distance, h, h0, utf8Len_nil]

/-- C8 counterexample: on the one-character string `"é"` (two UTF-8 bytes)
the source's `distance("", s)` is `2`, not the character count `1`: the
claim's reading of `len` as a character count is false. -/
theorem distance_empty_char_count_cex :
    distance [] ['é'] = 2 ∧ (['é'] : List Char).length = 1 ∧
      distance [] ['é'] ≠ (['é'] : List Char).length :=
  ⟨by decide, by decide, by decide⟩

/-- C9: a save/load round-trip of the persisted state reproduces an equal
question collection — same ids, texts and answered flags in the same
order. -/
theorem save_load_roundtrip (qs : List Question) :
    deserializeQuestions (serializeQuestions qs) = some qs := by
  have key : ∀ q, deserializeQuestion (serializeQuestion q) = some q := fun q => rfl
  induction qs with
  | nil => rfl
  | cons q t ih =>
    have iht : deserializeList (t.map serializeQuestion) = some t := ih
    simp [serializeQuestions, deserializeQuestions, deserializeList, key, iht]

/-- C10: the persisted content written by `Bot::save` depends only on the
question collection — two bot states with equal questions but arbitrary
source url, webhook id, webhook token and post time persist identical
content, so the webhook credentials never reach the persisted state. -/
theorem save_depends_only_on_questions (b1 b2 : Bot) (h : b1.questions = b2.questions) :
    saveContent b1 = saveContent b2 := by
  simp [saveContent, h]

theorem save_depends_only_on_questions_witness :
    saveContent ⟨['u'], ⟨1, ['s']⟩, (1, 2), [⟨0, ['a'], false⟩]⟩
      = saveContent ⟨['v'], ⟨2, ['t']⟩, (3, 4), [⟨0, ['a'], false⟩]⟩ :=
  save_depends_only_on_questions _ _ rfl

/-- C4 (amended): a malformed persisted state is absorbed, not surfaced:
`Bot::restore` turns a failed parse (`serde_json::from_str(..).unwrap_or_default()`)
into the empty collection and the tick proceeds exactly as if the persisted
state had been an empty collection. -/
theorem malformed_state_absorbed (fetched : Option (List Char))
    (postAt now : Nat × Nat) (pick : Nat) (ok : Bool) (ctr : Nat) :
    tick none fetched postAt now pick ok ctr
        = tick (some []) fetched postAt now pick ok ctr ∧
      restore none = [] :=
  ⟨rfl, rfl⟩

/-- C4 counterexample: with a malformed persisted state (parse result
`none`) the cycle does not abort with a serialization error — it completes
successfully, here reconciling the fetched line `"a"` outside the posting
window. -/
theorem malformed_state_no_error_cex :
    tick none (some ['a']) (12, 0) (11, 0) 0 true 0
      = .ok ([⟨0, ['a'], false⟩], []) := rfl

/-- C1 counterexample: the Reconciler does not skip blank lines and does
not match on the trimmed line.  First: the empty fetched block (one empty
line) appends an empty-text question to the empty collection instead of
leaving it unchanged.  Second: with the collection `["x"]` the line
`"    x"` trims to `"x"` (distance 0 to the existing entry), yet the scan
uses the raw line (distance 4, not below the threshold) and appends a
duplicate, growing the collection to two entries. -/
theorem reconcile_blank_and_untrimmed_cex :
    reconcileBlock ([], 0) [] = ([⟨0, [], false⟩], 1) ∧
      (reconcileBlock ([⟨5, ['x'], false⟩], 9) [' ', ' ', ' ', ' ', 'x']).1.length = 2 :=
  ⟨by decide, by decide⟩

/-- C6 counterexample: fetching the same line `"    x"` twice starting from
the empty collection produces TWO questions, not one: the first occurrence
is stored trimmed as `"x"`, and the second raw occurrence is at distance 4
from it, missing the threshold. -/
theorem ingest_twice_two_questions_cex :
    (reconcileBlock ([], 0)
        [' ', ' ', ' ', ' ', 'x', '\n', ' ', ' ', ' ', ' ', 'x']).1.length = 2 := by
  decide

theorem firstIdxBelow_none_iff {line : List Char} {qs : List Question} :
    firstIdxBelow line qs = none ↔ ∀ q ∈ qs, ¬ distance q.text line < 4 := by
  induction qs with
  | nil => simp [firstIdxBelow]
  | cons q rest ih =>
    by_cases hd : distance q.text line < 4
    · simp [firstIdxBelow, hd]
    · simp [firstIdxBelow, hd, ih]
      intro _
      omega

theorem updateFirstMatch_eq_none {line : List Char} {qs : List Question}
    (h : firstIdxBelow line qs = none) : updateFirstMatch line qs = none := by
  induction qs with
  | nil => rfl
  | cons q rest ih =>
    by_cases hd : distance q.text line < 4
    · simp [firstIdxBelow, hd] at h
    · simp only [firstIdxBelow, if_neg hd, Option.map_eq_none'] at h
      simp [updateFirstMatch, hd, ih h]

theorem updateFirstMatch_eq_some {line : List Char} {qs : List Question} {i : Nat}
    {q0 : Question} (h : firstIdxBelow line qs = some i) (hq : qs.get? i = some q0) :
    updateFirstMatch line qs
      = some (qs.set i
          (if distance q0.text line ≠ 0 then ⟨q0.id, trim line, q0.answered⟩ else q0)) := by
  induction qs generalizing i with
  | nil => simp [firstIdxBelow] at h
  | cons q rest ih =>
    by_cases hd : distance q.text line < 4
    · simp only [firstIdxBelow, if_pos hd, Option.some.injEq] at h
      subst h
      simp only [List.get?_cons_zero, Option.some.injEq] at hq
      subst hq
      simp [updateFirstMatch, hd]
    · simp only [firstIdxBelow, if_neg hd] at h
      rcases Option.map_eq_some'.mp h with ⟨j, hj, rfl⟩
      simp only [List.get?_cons_succ] at hq
      simp [updateFirstMatch, hd, ih hj hq]

theorem reconcileLine_none {line : List Char} {qs : List Question} {ctr : Nat}
    (h : firstIdxBelow line qs = none) :
    reconcileLine (qs, ctr) line = (qs ++ [⟨ctr, trim line, false⟩], ctr + 1) := by
  simp [reconcileLine, updateFirstMatch_eq_none h]

theorem reconcileLine_some {line : List Char} {qs : List Question} {ctr i : Nat}
    {q0 : Question} (h : firstIdxBelow line qs = some i) (hq : qs.get? i = some q0) :
    reconcileLine (qs, ctr) line
      = (qs.set i
          (if distance q0.text line ≠ 0 then ⟨q0.id, trim line, q0.answered⟩ else q0),
         ctr) := by
  simp [reconcileLine, updateFirstMatch_eq_some h hq]

/-- C1 (amended): the Reconciler splits the fetched block into lines and
processes EVERY line, including empty and whitespace-only ones; for each
line it scans the collection in order for the first entry whose distance to
the RAW (untrimmed) line is strictly below 4; with no such entry it appends
a new question carrying the trimmed text, and with such an entry it
overwrites that entry's text with the trimmed line exactly when the
distance is nonzero — in particular a blank line can append an empty-text
question. -/
theorem reconcile_processes_raw_lines (qs : List Question) (ctr : Nat)
    (line raw : List Char) :
    reconcileBlock (qs, ctr) raw = (splitNl raw).foldl reconcileLine (qs, ctr) ∧
      (firstIdxBelow line qs = none →
        reconcileLine (qs, ctr) line = (qs ++ [⟨ctr, trim line, false⟩], ctr + 1)) ∧
      (∀ i q0, firstIdxBelow line qs = some i → qs.get? i = some q0 →
        reconcileLine (qs, ctr) line
          = (qs.set i
              (if distance q0.text line ≠ 0 then ⟨q0.id, trim line, q0.answered⟩ else q0),
             ctr)) :=
  ⟨rfl, fun h => reconcileLine_none h, fun _ _ h hq => reconcileLine_some h hq⟩

theorem reconcile_processes_raw_lines_witness :
    reconcileLine ([], 0) [] = ([⟨0, [], false⟩], 1) :=
  (reconcile_processes_raw_lines [] 0 [] []).2.1 rfl

theorem splitNl_no_newline {l : List Char} (h : '\n' ∉ l) : splitNl l = [l] := by
  induction l with
  | nil => rfl
  | cons c t ih =>
    simp only [List.mem_cons, not_or] at h
    have hc : ¬ c = '\n' := fun he => h.1 he.symm
    simp [splitNl, hc, ih h.2]

theorem splitNl_append {l1 l2 : List Char} (h : '\n' ∉ l1) :
    splitNl (l1 ++ '\n' :: l2) = l1 :: splitNl l2 := by
  induction l1 with
  | nil => simp [splitNl]
  | cons c t ih =>
    simp only [List.mem_cons, not_or] at h
    have hc : ¬ c = '\n' := fun he => h.1 he.symm
    simp [splitNl, hc, ih h.2]

theorem updateFirstMatch_append_left_none {line : List Char} {qs l2 : List Question}
    (h : ∀ q ∈ qs, ¬ distance q.text line < 4) :
    updateFirstMatch line (qs ++ l2) = (updateFirstMatch line l2).map (qs ++ ·) := by
  induction qs with
  | nil => simp [Option.map_id']
  | cons q rest ih =>
    have hq : ¬ distance q.text line < 4 := h q (by simp)
    have hr := ih (fun p hp => h p (by simp [hp]))
    cases hm : updateFirstMatch line l2 with
    | none => simp [updateFirstMatch, hq, hr, hm]
    | some y => simp [updateFirstMatch, hq, hr, hm]

/-- C6 (amended): ingesting the same line twice produces exactly one new
question PROVIDED the line's trimmed form is within the threshold of the
raw line (distance < 4, e.g. any line with fewer than four characters of
surrounding whitespace); the second occurrence then matches the question
just created from the first and changes nothing.  Without that proviso the
claim fails (`ingest_twice_two_questions_cex`). -/
theorem ingest_twice_one_question (qs : List Question) (ctr : Nat) (line : List Char)
    (h1 : '\n' ∉ line)
    (h2 : ∀ q ∈ qs, ¬ distance q.text line < 4)
    (h3 : distance (trim line) line < 4) :
    reconcileBlock (qs, ctr) (line ++ '\n' :: line)
      = (qs ++ [⟨ctr, trim line, false⟩], ctr + 1) := by
  have hsplit : splitNl (line ++ '\n' :: line) = [line, line] := by
    rw [splitNl_append h1, splitNl_no_newline h1]
  unfold reconcileBlock
  rw [hsplit]
  have step1 : reconcileLine (qs, ctr) line = (qs ++ [⟨ctr, trim line, false⟩], ctr + 1) :=
    reconcileLine_none (firstIdxBelow_none_iff.mpr h2)
  have hnew : updateFirstMatch line [(⟨ctr, trim line, false⟩ : Question)]
      = some [⟨ctr, trim line, false⟩] := by
    simp [updateFirstMatch, h3]
  have step2 : reconcileLine (qs ++ [⟨ctr, trim line, false⟩], ctr + 1) line
      = (qs ++ [⟨ctr, trim line, false⟩], ctr + 1) := by
    unfold reconcileLine
    rw [updateFirstMatch_append_left_none h2, hnew]
    simp
  simp [step1, step2]

theorem ingest_twice_one_question_witness :
    reconcileBlock ([], 0) ['a', 'b', '\n', 'a', 'b'] = ([⟨0, ['a', 'b'], false⟩], 1) := by
  have h := ingest_twice_one_question [] 0 ['a', 'b'] (by decide) (by simp) (by decide)
  simpa using h

theorem firstIdxBelow_lt_length {line : List Char} {qs : List Question} {i : Nat}
    (h : firstIdxBelow line qs = some i) : i < qs.length := by
  induction qs generalizing i with
  | nil => simp [firstIdxBelow] at h
  | cons q rest ih =>
    by_cases hd : distance q.text line < 4
    · simp only [firstIdxBelow, if_pos hd, Option.some.injEq] at h
      subst h
      simp
    · simp only [firstIdxBelow, if_neg hd] at h
      rcases Option.map_eq_some'.mp h with ⟨j, hj, rfl⟩
      have := ih hj
      simp only [List.length_cons]
      omega

theorem set_get?_self {α : Type _} {l : List α} {i : Nat} {a : α}
    (h : l.get? i = some a) : l.set i a = l := by
  induction l generalizing i with
  | nil => simp at h
  | cons x t ih =>
    cases i with
    | zero =>
      simp only [List.get?_cons_zero, Option.some.injEq] at h
      subst h
      rfl
    | succ n =>
      simp only [List.get?_cons_succ] at h
      show x :: t.set n a = x :: t
      rw [ih h]

theorem map_set_self {α β : Type _} (f : α → β) {l : List α} {i : Nat} {a v : α}
    (hq : l.get? i = some a) (hfv : f v = f a) : (l.set i v).map f = l.map f := by
  rw [List.map_set, hfv]
  apply set_get?_self
  rw [List.get?_map, hq]
  rfl

/-- Each loop iteration of `Bot::load` either appends one fresh question or
leaves the ids and answered flags (and the counter) untouched. -/
theorem reconcileLine_step (qs : List Question) (ctr : Nat) (line : List Char) :
    reconcileLine (qs, ctr) line = (qs ++ [⟨ctr, trim line, false⟩], ctr + 1) ∨
      ((reconcileLine (qs, ctr) line).2 = ctr ∧
        (reconcileLine (qs, ctr) line).1.map Question.id = qs.map Question.id ∧
        (reconcileLine (qs, ctr) line).1.map Question.answered
          = qs.map Question.answered) := by
  cases hf : firstIdxBelow line qs with
  | none => exact Or.inl (reconcileLine_none hf)
  | some i =>
    have hi : i < qs.length := firstIdxBelow_lt_length hf
    have hq : qs.get? i = some (qs.get ⟨i, hi⟩) := List.get?_eq_get hi
    rw [reconcileLine_some hf hq]
    right
    exact ⟨rfl, map_set_self _ hq (by split <;> rfl),
      map_set_self _ hq (by split <;> rfl)⟩

/-- Frame of the whole reconciliation loop over a list of lines, relative
to the starting collection `qs` and counter `ctr`. -/
theorem reconcileLines_frame (lines : List (List Char)) (qs : List Question) (ctr : Nat) :
    ctr ≤ (lines.foldl reconcileLine (qs, ctr)).2 ∧
      (lines.foldl reconcileLine (qs, ctr)).1.length
        = qs.length + ((lines.foldl reconcileLine (qs, ctr)).2 - ctr) ∧
      (lines.foldl reconcileLine (qs, ctr)).1.map Question.id
        = qs.map Question.id
          ++ List.range' ctr ((lines.foldl reconcileLine (qs, ctr)).2 - ctr) ∧
      (lines.foldl reconcileLine (qs, ctr)).1.map Question.answered
        = qs.map Question.answered
          ++ List.replicate ((lines.foldl reconcileLine (qs, ctr)).2 - ctr) false := by
  induction lines generalizing qs ctr with
  | nil => simp
  | cons l ls ih =>
    simp only [List.foldl_cons]
    rcases reconcileLine_step qs ctr l with hstep | hkeep
    · rw [hstep]
      obtain ⟨ih1, ih2, ih3, ih4⟩ := ih (qs ++ [⟨ctr, trim l, false⟩]) (ctr + 1)
      refine ⟨by omega, by simp only [List.length_append, List.length_cons,
        List.length_nil] at ih2; omega, ?_, ?_⟩
      · rw [ih3]
        have hk : (ls.foldl reconcileLine (qs ++ [⟨ctr, trim l, false⟩], ctr + 1)).2 - ctr
            = ((ls.foldl reconcileLine (qs ++ [⟨ctr, trim l, false⟩], ctr + 1)).2
                - (ctr + 1)) + 1 := by
          omega
        rw [hk, List.range'_succ]
        simp [List.append_assoc]
      · rw [ih4]
        have hk : (ls.foldl reconcileLine (qs ++ [⟨ctr, trim l, false⟩], ctr + 1)).2 - ctr
            = ((ls.foldl reconcileLine (qs ++ [⟨ctr, trim l, false⟩], ctr + 1)).2
                - (ctr + 1)) + 1 := by
          omega
        rw [hk, List.replicate_succ]
        simp [List.append_assoc]
    · rcases hr : reconcileLine (qs, ctr) l with ⟨qs1, c1⟩
      rw [hr] at hkeep
      obtain ⟨hc, hid, hans⟩ := hkeep
      simp only at hc
      rw [hc]
      obtain ⟨ih1, ih2, ih3, ih4⟩ := ih qs1 ctr
      have hlen : qs1.length = qs.length := by
        have := congrArg List.length hid
        simpa using this
      refine ⟨ih1, by omega, ?_, ?_⟩
      · rw [ih3, hid]
      · rw [ih4, hans]

/-- C7: the Reconciler never removes entries and never touches answered
flags: over a whole fetched block, the final collection's ids are exactly
the original ids in their original order followed by the freshly generated
ids `ctr, ctr+1, …` of the appended questions (one per unmatched source
line, in source order); the answered flags are exactly the original flags
followed by `false` for every new question; the counter advances by the
number of appends.  Per incoming line: a first matching entry with nonzero
distance has exactly its text overwritten with the trimmed line (id and
answered kept, everything else untouched), and an unmatched line appends
`⟨ctr, trim line, false⟩` at the end. -/
theorem reconcile_frame (qs : List Question) (ctr : Nat) (raw : List Char) :
    ctr ≤ (reconcileBlock (qs, ctr) raw).2 ∧
      (reconcileBlock (qs, ctr) raw).1.length
        = qs.length + ((reconcileBlock (qs, ctr) raw).2 - ctr) ∧
      (reconcileBlock (qs, ctr) raw).1.map Question.id
        = qs.map Question.id
          ++ List.range' ctr ((reconcileBlock (qs, ctr) raw).2 - ctr) ∧
      (reconcileBlock (qs, ctr) raw).1.map Question.answered
        = qs.map Question.answered
          ++ List.replicate ((reconcileBlock (qs, ctr) raw).2 - ctr) false ∧
      (∀ line i q0, firstIdxBelow line qs = some i → qs.get? i = some q0 →
        distance q0.text line ≠ 0 →
        reconcileLine (qs, ctr) line = (qs.set i ⟨q0.id, trim line, q0.answered⟩, ctr)) ∧
      (∀ line, firstIdxBelow line qs = none →
        reconcileLine (qs, ctr) line = (qs ++ [⟨ctr, trim line, false⟩], ctr + 1)) := by
  obtain ⟨h1, h2, h3, h4⟩ := reconcileLines_frame (splitNl raw) qs ctr
  refine ⟨h1, h2, h3, h4, ?_, fun line hf => reconcileLine_none hf⟩
  intro line i q0 hf hq hnz
  rw [reconcileLine_some hf hq, if_pos hnz]

theorem reconcile_frame_witness :
    reconcileLine ([⟨7, ['a', 'b'], true⟩], 3) ['a', 'x', 'b']
      = ([⟨7, ['a', 'x', 'b'], true⟩], 3) := by
  have h := (reconcile_frame [⟨7, ['a', 'b'], true⟩] 3 []).2.2.2.2.1
    ['a', 'x', 'b'] 0 ⟨7, ['a', 'b'], true⟩ (by decide) rfl (by decide)
  simpa using h

theorem getD_of_lt {qs : List Question} {i : Nat} (hi : i < qs.length) :
    qs.getD i dQ = qs.get ⟨i, hi⟩ := by
  rw [List.getD_eq_get?, List.get?_eq_get hi]
  rfl

theorem unansweredIdx_all_answered {qs : List Question}
    (h : ∀ q ∈ qs, q.answered = true) : unansweredIdx qs = [] := by
  unfold unansweredIdx
  rw [List.filter_eq_nil]
  intro i hi
  have hilt : i < qs.length := List.mem_range.mp hi
  rw [getD_of_lt hilt]
  have hq := h _ (List.get_mem qs i hilt)
  simp only [List.get_eq_getElem] at hq
  simp [hq]

theorem unansweredIdx_ne_nil {qs : List Question}
    (h : ∃ q ∈ qs, q.answered = false) : unansweredIdx qs ≠ [] := by
  obtain ⟨q, hq, hans⟩ := h
  obtain ⟨⟨i, hi⟩, hget⟩ := List.mem_iff_get.mp hq
  intro hnil
  have hmem : i ∈ unansweredIdx qs := by
    unfold unansweredIdx
    rw [List.mem_filter]
    refine ⟨List.mem_range.mpr hi, ?_⟩
    rw [getD_of_lt hi, hget]
    simp [hans]
  rw [hnil] at hmem
  exact absurd hmem (List.not_mem_nil i)

theorem chosenIdx_spec {qs : List Question} (pick : Nat)
    (h : ∃ q ∈ qs, q.answered = false) :
    chosenIdx qs pick < qs.length ∧
      (qs.getD (chosenIdx qs pick) dQ).answered = false := by
  have hne := unansweredIdx_ne_nil h
  have hlen : 0 < (unansweredIdx qs).length := List.length_pos.mpr hne
  have hmod : pick % (unansweredIdx qs).length < (unansweredIdx qs).length :=
    Nat.mod_lt _ hlen
  have hmem : chosenIdx qs pick ∈ unansweredIdx qs := by
    unfold chosenIdx
    rw [List.getD_eq_get?, List.get?_eq_get hmod]
    exact List.get_mem _ _ _
  unfold unansweredIdx at hmem
  rw [List.mem_filter] at hmem
  obtain ⟨hr, hp⟩ := hmem
  refine ⟨List.mem_range.mp hr, ?_⟩
  simpa using hp

/-- C2: when the delivery step runs with no unanswered question it is a
successful no-op — no Notifier call, no error, no state change (whatever
the Notifier would have answered); with at least one unanswered question
exactly one entry — the selected one, unanswered beforehand — has its
answered flag set, and the Notifier is invoked exactly once, with exactly
that entry's text. -/
theorem answer_delivery (qs : List Question) (pick : Nat) :
    ((∀ q ∈ qs, q.answered = true) →
      answer qs pick true = (qs, [], true) ∧ answer qs pick false = (qs, [], true)) ∧
      ((∃ q ∈ qs, q.answered = false) →
        chosenIdx qs pick < qs.length ∧
          (qs.getD (chosenIdx qs pick) dQ).answered = false ∧
          answer qs pick true
            = (qs.set (chosenIdx qs pick)
                ⟨(qs.getD (chosenIdx qs pick) dQ).id,
                 (qs.getD (chosenIdx qs pick) dQ).text, true⟩,
               [(qs.getD (chosenIdx qs pick) dQ).text], true)) := by
  constructor
  · intro h
    have hnil := unansweredIdx_all_answered h
    constructor <;> simp [answer, hnil]
  · intro h
    obtain ⟨hlt, hans⟩ := chosenIdx_spec pick h
    have hne := unansweredIdx_ne_nil h
    have hlen0 : ¬ (unansweredIdx qs).length = 0 := by
      simpa [List.length_eq_zero] using hne
    refine ⟨hlt, hans, ?_⟩
    simp [answer, hlen0, chosenIdx]

theorem answer_delivery_witness :
    answer [⟨0, ['a'], false⟩] 0 true = ([⟨0, ['a'], true⟩], [['a']], true) := by
  have h := (answer_delivery [⟨0, ['a'], false⟩] 0).2 ⟨⟨0, ['a'], false⟩, by simp, rfl⟩
  exact h.2.2

/-- C3: when the Notifier fails during a triggered delivery, every entry's
answered flag is unchanged — the whole collection is returned exactly as
it was, so the selected entry stays unanswered — and the tick aborts,
propagating the notify error to the caller of the cycle. -/
theorem notify_failure_preserves_flags (parsed : Option (List Question)) (raw : List Char)
    (postAt : Nat × Nat) (pick ctr : Nat)
    (h : ∃ q ∈ (reconcileBlock (restore parsed, ctr) raw).1, q.answered = false) :
    (answer (reconcileBlock (restore parsed, ctr) raw).1 pick false).1
        = (reconcileBlock (restore parsed, ctr) raw).1 ∧
      tick parsed (some raw) postAt postAt pick false ctr = .error .notify := by
  have hflag : ∀ qs2 : List Question, (answer qs2 pick false).1 = qs2 := by
    intro qs2
    by_cases hz : (unansweredIdx qs2).length = 0 <;> simp [answer, hz]
  refine ⟨hflag _, ?_⟩
  have hpos : 0 < (reconcileBlock (restore parsed, ctr) raw).1.length := by
    obtain ⟨q, hq, _⟩ := h
    exact List.length_pos.mpr (List.ne_nil_of_mem hq)
  have hne := unansweredIdx_ne_nil h
  have hlen0 : ¬ (unansweredIdx (reconcileBlock (restore parsed, ctr) raw).1).length = 0 := by
    simpa [List.length_eq_zero] using hne
  show (if 0 < (reconcileBlock (restore parsed, ctr) raw).1.length ∧
      postAt.1 = postAt.1 ∧ postAt.2 = postAt.2 then _ else _) = _
  rw [if_pos ⟨hpos, rfl, rfl⟩]
  simp [answer, hlen0]

theorem notify_failure_preserves_flags_witness :
    (answer [⟨0, ['a'], false⟩] 0 false).1 = [⟨0, ['a'], false⟩] ∧
      tick (some [⟨0, ['a'], false⟩]) (some ['a']) (12, 30) (12, 30) 0 false 0
        = .error .notify := by
  have h := notify_failure_preserves_flags (some [⟨0, ['a'], false⟩]) ['a'] (12, 30) 0 0
    ⟨⟨0, ['a'], false⟩, by decide, rfl⟩
  exact h

theorem min3_eq_zero {u l d : Nat} (h : min (u + 1) (min (l + 1) d) = 0) : d = 0 := by
  rcases Nat.min_eq_zero_iff.mp h with h1 | h2
  · omega
  · rcases Nat.min_eq_zero_iff.mp h2 with h3 | h4
    · omega
    · exact h4

/-- A zero cell of the DP table forces equal indices and positionwise equal
character lookups below them: the table value is positive as soon as the
strings differ anywhere in the compared range. -/
theorem dlCellF_eq_zero {a b : List Char} :
    ∀ f i j, i + j ≤ f → dlCellF a b f i j = 0 →
      i = j ∧ ∀ k, k < i → a.get? k = b.get? k := by
  intro f
  induction f with
  | zero =>
    intro i j hle hz
    have hi : i = 0 := by omega
    have hj : j = 0 := by omega
    subst hi
    subst hj
    exact ⟨rfl, fun k hk => absurd hk (Nat.not_lt_zero k)⟩
  | succ f ihf =>
    intro i j hle hz
    rcases i with _ | i
    · have hj : j = 0 := by simpa [dlCellF] using hz
      subst hj
      exact ⟨rfl, fun k hk => absurd hk (Nat.not_lt_zero k)⟩
    · rcases j with _ | j
      · exfalso
        simp [dlCellF] at hz
      · simp only [dlCellF] at hz
        by_cases hcc : a.get? i = b.get? j
        · simp only [if_pos hcc] at hz
          by_cases hg : 0 < i ∧ 0 < j ∧ a.get? i = b.get? (j - 1) ∧ a.get? (i - 1) = b.get? j
          · rw [if_pos hg] at hz
            rcases Nat.min_eq_zero_iff.mp hz with hbase | htr
            · have hd0 : dlCellF a b f i j = 0 := by
                have := min3_eq_zero hbase
                omega
              obtain ⟨hij, hall⟩ := ihf i j (by omega) hd0
              subst hij
              refine ⟨rfl, fun k hk => ?_⟩
              rcases Nat.lt_succ_iff_lt_or_eq.mp hk with hk2 | hk2
              · exact hall k hk2
              · subst hk2
                exact hcc
            · have ht0 : dlCellF a b f (i - 1) (j - 1) = 0 := by omega
              obtain ⟨hg1, hg2, hg3, hg4⟩ := hg
              obtain ⟨hij1, hall⟩ := ihf (i - 1) (j - 1) (by omega) ht0
              have hij : i = j := by omega
              subst hij
              refine ⟨rfl, fun k hk => ?_⟩
              have hcase : k < i - 1 ∨ k = i - 1 ∨ k = i := by omega
              rcases hcase with hk2 | hk2 | hk2
              · exact hall k hk2
              · subst hk2
                calc a.get? (i - 1) = b.get? i := hg4
                  _ = a.get? i := hcc.symm
                  _ = b.get? (i - 1) := hg3
              · subst hk2
                exact hcc
          · rw [if_neg hg] at hz
            have hd0 : dlCellF a b f i j = 0 := by
              have := min3_eq_zero hz
              omega
            obtain ⟨hij, hall⟩ := ihf i j (by omega) hd0
            subst hij
            refine ⟨rfl, fun k hk => ?_⟩
            rcases Nat.lt_succ_iff_lt_or_eq.mp hk with hk2 | hk2
            · exact hall k hk2
            · subst hk2
              exact hcc
        · exfalso
          simp only [if_neg hcc] at hz
          by_cases hg : 0 < i ∧ 0 < j ∧ a.get? i = b.get? (j - 1) ∧ a.get? (i - 1) = b.get? j
          · rw [if_pos hg] at hz
            rcases Nat.min_eq_zero_iff.mp hz with hbase | htr
            · have := min3_eq_zero hbase
              omega
            · omega
          · rw [if_neg hg] at hz
            have := min3_eq_zero hz
            omega

theorem distance_zero_iff {a b : List Char} : distance a b = 0 ↔ a = b := by
  constructor
  · intro h
    by_cases hab : a = b
    · exact hab
    · unfold distance at h
      rw [if_neg hab] at h
      by_cases ha : utf8Len a = 0
      · rw [if_pos ha] at h
        exact absurd (utf8Len_eq_zero.mp ha ▸ (utf8Len_eq_zero.mp h).symm ▸ rfl) hab
      · rw [if_neg ha] at h
        by_cases hb : utf8Len b = 0
        · rw [if_pos hb] at h
          exact absurd h ha
        · rw [if_neg hb] at h
          obtain ⟨heq, hall⟩ :=
            dlCellF_eq_zero (utf8Len a + utf8Len b) (utf8Len a) (utf8Len b) le_rfl h
          apply List.ext
          intro n
          by_cases hn : n < utf8Len a
          · exact hall n hn
          · rw [List.get?_eq_none.mpr, List.get?_eq_none.mpr]
            · have := length_le_utf8Len b
              omega
            · have := length_le_utf8Len a
              omega
  · intro h
    subst h
    simp [distance]

/-- C5: `Question::distance` is a natural number (hence a non-negative
integer), `distance a a = 0`, and `distance a b = 0` exactly when the two
strings are character-for-character equal. -/
theorem distance_zero_iff_eq (a b : List Char) :
    distance a a = 0 ∧ (distance a b = 0 ↔ a = b) :=
  ⟨distance_zero_iff.mpr rfl, distance_zero_iff⟩

end Qotd
